import Mathlib

/-!
# A shallow embedding of `rustc_borrowck::member_constraints`

This file models the Rust module `compiler/rustc_borrowck/src/member_constraints.rs`:
a `MemberConstraintSet` stores `R0 member of [R1..Rn]` constraints in an
append-only arena (`constraints`), threads the constraints sharing one key into
singly linked lists via `next_constraint` indices, keeps the list heads in the
insertion-ordered map `first_constraints` (an `FxIndexMap`), and stores all
choice regions in one flat arena (`choice_regions`) addressed by
`[start_index, end_index)` ranges.

Modelling decisions:
* `ty::RegionVid`, `Span`, `Ty` and `OpaqueTypeKey` are opaque identifiers;
  they are modelled as `Nat`.
* `NllMemberConstraintIndex` is the position in the `constraints` list.
* `FxIndexMap` is modelled as an association list in insertion order;
  `fcInsert` replaces the value in place for an existing key (keeping its
  position) and appends a fresh key at the end, exactly as `IndexMap::insert`.
* The chain walks in `indices` and `append_list` are modelled with fuel; the
  fuel (`constraints.length`) is sufficient for every acyclic chain, which is
  an invariant of every store reachable through the API.  On inputs where the
  Rust loop would not terminate or would index out of bounds (unreachable
  states), the fuelled model stops instead.
* Rust panics (out-of-bounds indexing through the `Index` impl or
  `choice_regions`) are modelled by `Option`: `none` is the fatal path.
-/

/-- One record of the `constraints` arena: Rust struct `MemberConstraint<'tcx>`. -/
structure MemberConstraint where
  next_constraint : Option Nat
  definition_span : Nat
  hidden_ty : Nat
  key : Nat
  member_region_vid : Nat
  start_index : Nat
  end_index : Nat
  deriving DecidableEq, Repr

/-- Lookup in an insertion-ordered map (`FxIndexMap::get`). -/
def fcGet {α β : Type} [DecidableEq α] : List (α × β) → α → Option β
  | [], _ => none
  | p :: m, k => if p.1 = k then some p.2 else fcGet m k

/-- Replace the value stored at an existing key, keeping the entry position. -/
def fcReplace {α β : Type} [DecidableEq α] : List (α × β) → α → β → List (α × β)
  | [], _, _ => []
  | p :: m, k, v => if p.1 = k then (p.1, v) :: m else p :: fcReplace m k v

/-- `FxIndexMap::insert`: overwrite in place when the key is present
(the entry keeps its insertion position), append to the end otherwise. -/
def fcInsert {α β : Type} [DecidableEq α] (m : List (α × β)) (k : α) (v : β) :
    List (α × β) :=
  if (fcGet m k).isSome then fcReplace m k v else m ++ [(k, v)]

/-- Rust struct `MemberConstraintSet<'tcx, R>`, generic over the key type `R`. -/
structure MemberConstraintSet (R : Type) where
  first_constraints : List (R × Nat)
  constraints : List MemberConstraint
  choice_regions : List Nat

namespace MemberConstraintSet

/-- `Default for MemberConstraintSet<'_, ty::RegionVid>`. -/
def empty : MemberConstraintSet Nat :=
  { first_constraints := [], constraints := [], choice_regions := [] }

/-- `MemberConstraintSet::is_empty`. -/
def is_empty {R : Type} (s : MemberConstraintSet R) : Bool :=
  s.constraints.isEmpty

/-- `MemberConstraintSet::add_member_constraint` (the `push` of the spec);
only implemented on `R = ty::RegionVid` in the source. -/
def add_member_constraint (s : MemberConstraintSet Nat) (key hidden_ty : Nat)
    (definition_span : Nat) (member_region_vid : Nat) (choice_regions : List Nat) :
    MemberConstraintSet Nat :=
  let next_constraint := fcGet s.first_constraints member_region_vid
  let start_index := s.choice_regions.length
  let choice_regions2 := s.choice_regions ++ choice_regions
  let end_index := choice_regions2.length
  let constraint_index := s.constraints.length
  { first_constraints := fcInsert s.first_constraints member_region_vid constraint_index
    constraints := s.constraints ++
      [{ next_constraint, definition_span, hidden_ty, key, member_region_vid,
         start_index, end_index }]
    choice_regions := choice_regions2 }

end MemberConstraintSet

/-- Overwrite the `next_constraint` link of record `p`
(no-op when `p` is out of bounds; the Rust code would panic there). -/
def updNext (cs : List MemberConstraint) (p : Nat) (v : Option Nat) :
    List MemberConstraint :=
  match cs[p]? with
  | some c => cs.set p { c with next_constraint := v }
  | none => cs

/-- The loop of the free function `append_list`: follow `next_constraint` links
from `p` to the terminal record and point it at `source_list`.  `fuel` bounds
the walk; on an acyclic in-bounds chain it is never exhausted. -/
def append_list_go (cs : List MemberConstraint) (source_list : Nat) :
    Nat → Nat → List MemberConstraint
  | _, 0 => cs
  | p, fuel + 1 =>
    match cs[p]? with
    | none => cs
    | some r =>
      match r.next_constraint with
      | some q => append_list_go cs source_list q fuel
      | none => updNext cs p (some source_list)

/-- Rust free function `append_list`. -/
def append_list (cs : List MemberConstraint) (target_list source_list : Nat) :
    List MemberConstraint :=
  append_list_go cs source_list target_list (cs.length + 1)

/-- The loop body of `MemberConstraintSet::into_mapped`: fold over the old
head-map entries in insertion order, splicing on key collisions. -/
def into_mapped_go {R1 R2 : Type} [DecidableEq R2] (map_fn : R1 → R2) :
    List (R1 × Nat) → List (R2 × Nat) → List MemberConstraint →
    List (R2 × Nat) × List MemberConstraint
  | [], fc2, cs => (fc2, cs)
  | (r1, start1) :: rest, fc2, cs =>
    let r2 := map_fn r1
    let cs2 := match fcGet fc2 r2 with
      | some start2 => append_list cs start1 start2
      | none => cs
    into_mapped_go map_fn rest (fcInsert fc2 r2 start1) cs2

namespace MemberConstraintSet

/-- `MemberConstraintSet::into_mapped`. -/
def into_mapped {R1 R2 : Type} [DecidableEq R1] [DecidableEq R2]
    (s : MemberConstraintSet R1) (map_fn : R1 → R2) : MemberConstraintSet R2 :=
  let result := into_mapped_go map_fn s.first_constraints [] s.constraints
  { first_constraints := result.1
    constraints := result.2
    choice_regions := s.choice_regions }

/-- `MemberConstraintSet::all_indices` as the list of yielded indices. -/
def all_indices {R : Type} (s : MemberConstraintSet R) : List Nat :=
  List.range s.constraints.length

end MemberConstraintSet

/-- The walk of the iterator returned by `MemberConstraintSet::indices`:
yield the current index, then follow its `next_constraint` link.  `fuel`
bounds the walk; on an acyclic chain it is never exhausted. -/
def chain_go (cs : List MemberConstraint) : Nat → Option Nat → List Nat
  | _, none => []
  | 0, some _ => []
  | fuel + 1, some current =>
    current :: chain_go cs fuel (cs[current]?.bind (fun c => c.next_constraint))

namespace MemberConstraintSet

/-- `MemberConstraintSet::indices` as the list of yielded indices. -/
def indices {R : Type} [DecidableEq R] (s : MemberConstraintSet R)
    (member_region_vid : R) : List Nat :=
  chain_go s.constraints s.constraints.length
    (fcGet s.first_constraints member_region_vid)

/-- `MemberConstraintSet::choice_regions`: the slice
`choice_regions[start_index..end_index]` of the record at `pci`.
`none` models the panic on an out-of-bounds `pci`. -/
def choice_regions_at {R : Type} (s : MemberConstraintSet R) (pci : Nat) :
    Option (List Nat) :=
  s.constraints[pci]?.map (fun c =>
    (s.choice_regions.drop c.start_index).take (c.end_index - c.start_index))

/-- The `Index<NllMemberConstraintIndex>` impl: `none` models the panic on an
out-of-bounds index. -/
def indexRec {R : Type} (s : MemberConstraintSet R) (i : Nat) :
    Option MemberConstraint :=
  s.constraints[i]?

end MemberConstraintSet

/-! ## Stores reachable through the API -/

/-- The arguments of one `add_member_constraint` call. -/
structure PushCall where
  key : Nat
  hidden_ty : Nat
  definition_span : Nat
  member_region_vid : Nat
  choice_regions : List Nat
  deriving DecidableEq, Repr

/-- The store obtained by starting from the default (empty) set and performing
the given sequence of `add_member_constraint` calls. -/
def buildStore (ps : List PushCall) : MemberConstraintSet Nat :=
  ps.foldl
    (fun s p => s.add_member_constraint p.key p.hidden_ty p.definition_span
      p.member_region_vid p.choice_regions)
    MemberConstraintSet.empty

/-! ## Closed form of a store built by pushes -/

instance : Inhabited PushCall := ⟨⟨0, 0, 0, 0, []⟩⟩

/-- The push at position `i` (defaulting outside the list). -/
def psGet (ps : List PushCall) (i : Nat) : PushCall :=
  ps.getD i default

/-- The keys of the pushes, in push order. -/
def mrvs (ps : List PushCall) : List Nat :=
  ps.map (fun p => p.member_region_vid)

/-- The positions of the pushes made with key `k`, in push order. -/
def idxsOf (ps : List PushCall) (k : Nat) : List Nat :=
  (List.range ps.length).filter
    (fun i => ps[i]?.map (fun p => p.member_region_vid) = some k)

/-- The most recent push with key `k`, if any. -/
def lastIdx? (ps : List PushCall) (k : Nat) : Option Nat :=
  (idxsOf ps k).getLast?

/-- Total length of the choice-region lists of the pushes. -/
def sumLens (ps : List PushCall) : Nat :=
  (ps.map (fun p => p.choice_regions.length)).sum

/-- The arena record produced by push `i` of the sequence `ps`. -/
def recOf (ps : List PushCall) (i : Nat) : MemberConstraint :=
  { next_constraint := lastIdx? (ps.take i) (psGet ps i).member_region_vid
    definition_span := (psGet ps i).definition_span
    hidden_ty := (psGet ps i).hidden_ty
    key := (psGet ps i).key
    member_region_vid := (psGet ps i).member_region_vid
    start_index := sumLens (ps.take i)
    end_index := sumLens (ps.take (i + 1)) }

/-! ## The chain predicate -/

/-- `ChainOk cs h L`: starting at record `h`, following `next_constraint`
links visits exactly the indices `L` and terminates at a record whose link
is `none`. -/
inductive ChainOk (cs : List MemberConstraint) : Nat → List Nat → Prop
  | last (i : Nat) (c : MemberConstraint) (hc : cs[i]? = some c)
      (hn : c.next_constraint = none) : ChainOk cs i [i]
  | cons (i : Nat) (c : MemberConstraint) (j : Nat) (L : List Nat)
      (hc : cs[i]? = some c) (hn : c.next_constraint = some j)
      (hL : ChainOk cs j L) : ChainOk cs i (i :: L)


/-- The payload of a record: every field except the chain link. -/
def payload (c : MemberConstraint) : Nat × Nat × Nat × Nat × Nat × Nat :=
  (c.definition_span, c.hidden_ty, c.key, c.member_region_vid, c.start_index,
    c.end_index)

/-- Three pushes with distinct keys `1, 2, 3`, one singleton candidate each:
the three-way-collision example of the specification. -/
def threeWayPushes : List PushCall :=
  [⟨0, 0, 0, 1, [10]⟩, ⟨0, 0, 0, 2, [20]⟩, ⟨0, 0, 0, 3, [30]⟩]

/-- The chain currently accumulated for a new key (empty when absent). -/
def accLookup {R2 : Type} [DecidableEq R2] (acc : List (R2 × List Nat)) (r2 : R2) :
    List Nat :=
  (fcGet acc r2).getD []

/-- Forget the chains, keeping each accumulated chain's head index. -/
def derivedHeads {R2 : Type} (acc : List (R2 × List Nat)) : List (R2 × Nat) :=
  acc.map (fun q => (q.1, q.2.headD 0))

/-- The chain the merge loop will have produced for `r2` once the entries of
`S` have been processed on top of the accumulation `acc`: the chains of the
entries of `S` that map to `r2`, later entries first, followed by the chain
already accumulated for `r2`. -/
def mergedChains {R1 R2 : Type} [DecidableEq R2] (f : R1 → R2)
    (S : List (R1 × List Nat)) (acc : List (R2 × List Nat)) (r2 : R2) : List Nat :=
  (((S.filter (fun q => f q.1 = r2)).map Prod.snd).reverse).flatten ++
    accLookup acc r2

/-- The chain that the state `res` of the merge loop yields for key `r2`. -/
def resultChain {R2 : Type} [DecidableEq R2]
    (res : List (R2 × Nat) × List MemberConstraint) (r2 : R2) : List Nat :=
  chain_go res.2 res.2.length (fcGet res.1 r2)

/-! ## Lemmas about the insertion-ordered map -/

theorem fcGet_eq_none_iff {α β : Type} [DecidableEq α] (m : List (α × β)) (k : α) :
    fcGet m k = none ↔ k ∉ m.map Prod.fst := by
  induction m with
  | nil => simp [fcGet]
  | cons p m ih =>
    simp only [fcGet, List.map_cons, List.mem_cons]
    by_cases h : p.1 = k
    · simp [h]
    · simp only [h, if_false, ih]
      constructor
      · intro hk hor
        cases hor with
        | inl hh => exact h hh.symm
        | inr hmem => exact hk hmem
      · intro hk hmem
        exact hk (Or.inr hmem)

theorem fcGet_mem {α β : Type} [DecidableEq α] {m : List (α × β)} {k : α} {v : β}
    (h : fcGet m k = some v) : (k, v) ∈ m := by
  induction m with
  | nil => simp [fcGet] at h
  | cons p m ih =>
    by_cases hp : p.1 = k
    · simp [fcGet, hp] at h
      subst hp h
      simp
    · simp [fcGet, hp] at h
      exact List.mem_cons_of_mem _ (ih h)

theorem fcGet_append_of_none {α β : Type} [DecidableEq α] {m : List (α × β)}
    (m' : List (α × β)) {k : α} (h : fcGet m k = none) :
    fcGet (m ++ m') k = fcGet m' k := by
  induction m with
  | nil => simp
  | cons p m ih =>
    by_cases hp : p.1 = k
    · simp [fcGet, hp] at h
    · simp [fcGet, hp] at h ⊢
      exact ih h

theorem fcGet_append_of_some {α β : Type} [DecidableEq α] {m : List (α × β)}
    (m' : List (α × β)) {k : α} {v : β} (h : fcGet m k = some v) :
    fcGet (m ++ m') k = some v := by
  induction m with
  | nil => simp [fcGet] at h
  | cons p m ih =>
    by_cases hp : p.1 = k
    · simp [fcGet, hp] at h ⊢
      exact h
    · simp [fcGet, hp] at h ⊢
      exact ih h

theorem fcReplace_keys {α β : Type} [DecidableEq α] (m : List (α × β)) (k : α) (v : β) :
    (fcReplace m k v).map Prod.fst = m.map Prod.fst := by
  induction m with
  | nil => simp [fcReplace]
  | cons p m ih =>
    by_cases hp : p.1 = k <;> simp [fcReplace, hp, ih]

theorem fcGet_fcReplace_self {α β : Type} [DecidableEq α] {m : List (α × β)} {k : α}
    {v0 : β} (v : β) (h : fcGet m k = some v0) :
    fcGet (fcReplace m k v) k = some v := by
  induction m with
  | nil => simp [fcGet] at h
  | cons p m ih =>
    by_cases hp : p.1 = k
    · simp [fcReplace, fcGet, hp]
    · simp [fcReplace, fcGet, hp] at h ⊢
      exact ih h

theorem fcGet_fcReplace_ne {α β : Type} [DecidableEq α] (m : List (α × β)) (k : α)
    (v : β) {k' : α} (h : k' ≠ k) :
    fcGet (fcReplace m k v) k' = fcGet m k' := by
  induction m with
  | nil => simp [fcReplace]
  | cons p m ih =>
    by_cases hp : p.1 = k
    · have hpk : ¬p.1 = k' := fun hh => h (hh.symm.trans hp)
      have hkk : ¬k = k' := fun hh => h hh.symm
      simp [fcReplace, fcGet, hp, hpk, hkk]
    · by_cases hp' : p.1 = k' <;> simp [fcReplace, fcGet, hp, hp', ih, h]

/-- Decompose a map at a key it contains, and the effect of `fcReplace` there. -/
theorem fcReplace_decomp {α β : Type} [DecidableEq α] {m : List (α × β)} {k : α}
    {v0 : β} (v : β) (h : fcGet m k = some v0) :
    ∃ m1 m2, m = m1 ++ (k, v0) :: m2 ∧ fcReplace m k v = m1 ++ (k, v) :: m2 ∧
      k ∉ m1.map Prod.fst := by
  induction m with
  | nil => simp [fcGet] at h
  | cons p m ih =>
    by_cases hp : p.1 = k
    · simp [fcGet, hp] at h
      have hpv : p = (k, v0) := by
        obtain ⟨a, b⟩ := p
        simp only at hp h
        rw [hp, h]
      refine ⟨[], m, ?_, ?_, by simp⟩
      · simp [hpv]
      · simp [fcReplace, hp, hpv]
    · simp [fcGet, hp] at h
      obtain ⟨m1, m2, hm, hr, hk⟩ := ih h
      refine ⟨p :: m1, m2, by simp [hm], ?_, ?_⟩
      · simp [fcReplace, hp, hr]
      · simp [hk]
        exact fun hh => hp hh.symm

theorem fcGet_map_snd {α β γ : Type} [DecidableEq α] (m : List (α × β)) (g : β → γ)
    (k : α) : fcGet (m.map (fun p => (p.1, g p.2))) k = (fcGet m k).map g := by
  induction m with
  | nil => simp [fcGet]
  | cons p m ih =>
    by_cases hp : p.1 = k <;> simp [fcGet, hp, ih]

theorem fcReplace_map_snd {α β γ : Type} [DecidableEq α] (m : List (α × β)) (g : β → γ)
    (k : α) (v : β) :
    fcReplace (m.map (fun p => (p.1, g p.2))) k (g v) =
      (fcReplace m k v).map (fun p => (p.1, g p.2)) := by
  induction m with
  | nil => simp [fcReplace]
  | cons p m ih =>
    by_cases hp : p.1 = k <;> simp [fcReplace, hp, ih]

theorem fcInsert_map_snd {α β γ : Type} [DecidableEq α] (m : List (α × β)) (g : β → γ)
    (k : α) (v : β) :
    fcInsert (m.map (fun p => (p.1, g p.2))) k (g v) =
      (fcInsert m k v).map (fun p => (p.1, g p.2)) := by
  unfold fcInsert
  rw [fcGet_map_snd]
  cases h : fcGet m k with
  | none => simp [fcReplace_map_snd]
  | some v0 => simp [fcReplace_map_snd]

/-! ## Chains of `next_constraint` links -/

theorem lt_of_getElem?_some {α : Type} {l : List α} {i : Nat} {a : α}
    (h : l[i]? = some a) : i < l.length := by
  by_contra hge
  rw [List.getElem?_eq_none (by omega)] at h
  cases h

theorem ChainOk.ne_nil {cs : List MemberConstraint} {h : Nat} {L : List Nat}
    (hL : ChainOk cs h L) : L ≠ [] := by
  cases hL <;> simp

theorem ChainOk.headD_eq {cs : List MemberConstraint} {h : Nat} {L : List Nat}
    (hL : ChainOk cs h L) : L.headD 0 = h := by
  cases hL <;> simp

theorem ChainOk.mem_lt {cs : List MemberConstraint} {h : Nat} {L : List Nat}
    (hL : ChainOk cs h L) : ∀ i ∈ L, i < cs.length := by
  induction hL with
  | last i c hc hn =>
    intro x hx
    simp at hx
    exact hx ▸ lt_of_getElem?_some hc
  | cons i c j L hc hn hL ih =>
    intro x hx
    rcases List.mem_cons.mp hx with rfl | hx
    · exact lt_of_getElem?_some hc
    · exact ih x hx

theorem chain_go_none (cs : List MemberConstraint) (fuel : Nat) :
    chain_go cs fuel none = [] := by
  cases fuel <;> rfl

theorem chain_go_eq_of_chainOk {cs : List MemberConstraint} {h : Nat} {L : List Nat}
    (hL : ChainOk cs h L) : ∀ fuel, L.length ≤ fuel → chain_go cs fuel (some h) = L := by
  induction hL with
  | last i c hc hn =>
    intro fuel hf
    cases fuel with
    | zero => simp at hf
    | succ f => simp [chain_go, hc, hn]
  | cons i c j L hc hn hL ih =>
    intro fuel hf
    cases fuel with
    | zero => simp at hf
    | succ f =>
      have hfl : L.length ≤ f := by simpa using hf
      simp [chain_go, hc, hn, ih f hfl]

theorem length_le_of_nodup_lt {L : List Nat} {n : Nat} (h1 : L.Nodup)
    (h2 : ∀ i ∈ L, i < n) : L.length ≤ n := by
  have hcard : L.toFinset.card = L.length := List.toFinset_card_of_nodup h1
  have hsub : L.toFinset ⊆ Finset.range n := by
    intro x hx
    rw [List.mem_toFinset] at hx
    exact Finset.mem_range.mpr (h2 x hx)
  have hle := Finset.card_le_card hsub
  rw [hcard, Finset.card_range] at hle
  exact hle

theorem updNext_length (cs : List MemberConstraint) (p : Nat) (v : Option Nat) :
    (updNext cs p v).length = cs.length := by
  unfold updNext
  cases h : cs[p]? <;> simp

theorem updNext_getElem_ne (cs : List MemberConstraint) (p : Nat) (v : Option Nat)
    {q : Nat} (h : p ≠ q) : (updNext cs p v)[q]? = cs[q]? := by
  unfold updNext
  cases hc : cs[p]? with
  | none => rfl
  | some c => simp [List.getElem?_set, h]

theorem updNext_getElem_self {cs : List MemberConstraint} {p : Nat}
    {c : MemberConstraint} (hc : cs[p]? = some c) (v : Option Nat) :
    (updNext cs p v)[p]? = some { c with next_constraint := v } := by
  unfold updNext
  rw [hc]
  simp [List.getElem?_set, lt_of_getElem?_some hc]

theorem ChainOk.updNext_stable {cs : List MemberConstraint} {h : Nat} {L : List Nat}
    (hL : ChainOk cs h L) {p : Nat} (hp : p ∉ L) (v : Option Nat) :
    ChainOk (updNext cs p v) h L := by
  induction hL with
  | last i c hc hn =>
    have hpi : p ≠ i := by simpa using hp
    exact ChainOk.last i c (by rw [updNext_getElem_ne cs p v hpi]; exact hc) hn
  | cons i c j L hc hn hL ih =>
    have hpi : p ≠ i := fun hh => hp (by simp [hh])
    have hpL : p ∉ L := fun hh => hp (by simp [hh])
    exact ChainOk.cons i c j L (by rw [updNext_getElem_ne cs p v hpi]; exact hc) hn
      (ih hpL)

theorem ChainOk.append_stable {cs : List MemberConstraint} {h : Nat} {L : List Nat}
    (hL : ChainOk cs h L) (ds : List MemberConstraint) : ChainOk (cs ++ ds) h L := by
  induction hL with
  | last i c hc hn =>
    exact ChainOk.last i c
      (by rw [List.getElem?_append_left (lt_of_getElem?_some hc)]; exact hc) hn
  | cons i c j L hc hn hL ih =>
    exact ChainOk.cons i c j L
      (by rw [List.getElem?_append_left (lt_of_getElem?_some hc)]; exact hc) hn ih

theorem getLastD_of_ne_nil {α : Type} {L : List α} (h : L ≠ []) (d d' : α) :
    L.getLastD d = L.getLastD d' := by
  rw [List.getLastD_eq_getLast?, List.getLastD_eq_getLast?]
  cases hg : L.getLast? with
  | none => exact absurd (List.getLast?_eq_none_iff.mp hg) h
  | some a => rfl

theorem getLastD_mem {α : Type} {L : List α} (h : L ≠ []) (d : α) :
    L.getLastD d ∈ L := by
  rw [List.getLastD_eq_getLast?]
  cases hg : L.getLast? with
  | none => exact absurd (List.getLast?_eq_none_iff.mp hg) h
  | some a =>
    simp only [Option.getD_some]
    exact List.mem_of_mem_getLast? hg

theorem append_list_go_eq {cs : List MemberConstraint} (s2 : Nat) {h : Nat}
    {L : List Nat} (hL : ChainOk cs h L) :
    ∀ fuel, L.length ≤ fuel →
      append_list_go cs s2 h fuel = updNext cs (L.getLastD 0) (some s2) := by
  induction hL with
  | last i c hc hn =>
    intro fuel hf
    cases fuel with
    | zero => simp at hf
    | succ f => simp [append_list_go, hc, hn]
  | cons i c j L hc hn hL ih =>
    intro fuel hf
    cases fuel with
    | zero => simp at hf
    | succ f =>
      have hfl : L.length ≤ f := by simpa using hf
      have hLne : L ≠ [] := hL.ne_nil
      simp only [append_list_go, hc, hn]
      rw [ih f hfl, List.getLastD_cons, getLastD_of_ne_nil hLne i 0]

theorem append_list_eq {cs : List MemberConstraint} {t : Nat} {L : List Nat}
    (hL : ChainOk cs t L) (hnd : L.Nodup) (s2 : Nat) :
    append_list cs t s2 = updNext cs (L.getLastD 0) (some s2) := by
  have hlen : L.length ≤ cs.length := length_le_of_nodup_lt hnd hL.mem_lt
  exact append_list_go_eq s2 hL (cs.length + 1) (by omega)

theorem ChainOk.link {cs : List MemberConstraint} {t : Nat} {L : List Nat}
    (hL : ChainOk cs t L) :
    ∀ (_ : L.Nodup) {s2 : Nat} {M : List Nat} (_ : ChainOk cs s2 M)
      (_ : L.getLastD 0 ∉ M),
      ChainOk (updNext cs (L.getLastD 0) (some s2)) t (L ++ M) := by
  induction hL with
  | last i c hc hn =>
    intro _ s2 M hM hp
    have hlast : [i].getLastD 0 = i := by simp
    rw [hlast] at hp ⊢
    have hM2 : ChainOk (updNext cs i (some s2)) s2 M := hM.updNext_stable hp _
    have hcons : ChainOk (updNext cs i (some s2)) i (i :: M) :=
      ChainOk.cons i { c with next_constraint := some s2 } s2 M
        (updNext_getElem_self hc _) rfl hM2
    simpa using hcons
  | cons i c j L hc hn hL ih =>
    intro hnd s2 M hM hp
    have hLne : L ≠ [] := hL.ne_nil
    have hgl : (i :: L).getLastD 0 = L.getLastD 0 := by
      rw [List.getLastD_cons]
      exact getLastD_of_ne_nil hLne i 0
    rw [hgl] at hp ⊢
    have hiL : i ∉ L := (List.nodup_cons.mp hnd).1
    have hndL : L.Nodup := (List.nodup_cons.mp hnd).2
    have hip : i ≠ L.getLastD 0 := fun hh => hiL (by rw [hh]; exact getLastD_mem hLne 0)
    have hrec : ChainOk (updNext cs (L.getLastD 0) (some s2)) j (L ++ M) :=
      ih hndL hM hp
    refine ChainOk.cons i c j (L ++ M) ?_ hn hrec
    rw [updNext_getElem_ne _ _ _ (fun hh => hip hh.symm)]
    exact hc

/-! ## More map lemmas -/

theorem fcGet_fcInsert_self {α β : Type} [DecidableEq α] (m : List (α × β)) (k : α)
    (v : β) : fcGet (fcInsert m k v) k = some v := by
  unfold fcInsert
  cases h : fcGet m k with
  | none =>
    simp only [Option.isSome_none, Bool.false_eq_true, if_false]
    rw [fcGet_append_of_none _ h]
    simp [fcGet]
  | some v0 =>
    simp only [Option.isSome_some, if_true]
    exact fcGet_fcReplace_self v h

theorem fcGet_fcInsert_ne {α β : Type} [DecidableEq α] (m : List (α × β)) (k : α)
    (v : β) {k' : α} (h : k' ≠ k) : fcGet (fcInsert m k v) k' = fcGet m k' := by
  unfold fcInsert
  cases hg : fcGet m k with
  | none =>
    simp only [Option.isSome_none, Bool.false_eq_true, if_false]
    cases hg' : fcGet m k' with
    | none =>
      rw [fcGet_append_of_none _ hg']
      have hkk : ¬k = k' := fun hh => h hh.symm
      simp [fcGet, hkk]
    | some w => rw [fcGet_append_of_some _ hg']
  | some v0 =>
    simp only [Option.isSome_some, if_true]
    exact fcGet_fcReplace_ne m k v h

theorem fcInsert_keys {α β : Type} [DecidableEq α] (m : List (α × β)) (k : α) (v : β) :
    (fcInsert m k v).map Prod.fst =
      if (fcGet m k).isSome then m.map Prod.fst else m.map Prod.fst ++ [k] := by
  unfold fcInsert
  by_cases h : (fcGet m k).isSome <;> simp [h, fcReplace_keys]

theorem buildStore_append (ps : List PushCall) (p : PushCall) :
    buildStore (ps ++ [p]) = (buildStore ps).add_member_constraint p.key p.hidden_ty
      p.definition_span p.member_region_vid p.choice_regions := by
  unfold buildStore
  rw [List.foldl_append]
  rfl

theorem psGet_append_left (ps : List PushCall) (p : PushCall) {i : Nat}
    (h : i < ps.length) : psGet (ps ++ [p]) i = psGet ps i := by
  unfold psGet
  rw [List.getD_eq_getElem?_getD, List.getD_eq_getElem?_getD,
    List.getElem?_append_left h]

theorem psGet_append_self (ps : List PushCall) (p : PushCall) :
    psGet (ps ++ [p]) ps.length = p := by
  unfold psGet
  rw [List.getD_eq_getElem?_getD, List.getElem?_append_right (le_refl _)]
  simp

theorem idxsOf_append (ps : List PushCall) (p : PushCall) (k : Nat) :
    idxsOf (ps ++ [p]) k =
      idxsOf ps k ++ if p.member_region_vid = k then [ps.length] else [] := by
  unfold idxsOf
  have hlen : (ps ++ [p]).length = ps.length + 1 := by simp
  rw [hlen, List.range_succ, List.filter_append]
  congr 1
  · apply List.filter_congr
    intro i hi
    have hilt : i < ps.length := List.mem_range.mp hi
    rw [List.getElem?_append_left hilt]
  · have hg : (ps ++ [p])[ps.length]? = some p := by
      rw [List.getElem?_append_right (le_refl _)]
      simp
    by_cases h : p.member_region_vid = k <;> simp [hg, h]

theorem lastIdx?_append_self (ps : List PushCall) (p : PushCall) {k : Nat}
    (h : p.member_region_vid = k) : lastIdx? (ps ++ [p]) k = some ps.length := by
  unfold lastIdx?
  rw [idxsOf_append]
  simp [h, List.getLast?_concat]

theorem lastIdx?_append_ne (ps : List PushCall) (p : PushCall) {k : Nat}
    (h : ¬p.member_region_vid = k) : lastIdx? (ps ++ [p]) k = lastIdx? ps k := by
  unfold lastIdx?
  rw [idxsOf_append]
  simp [h]

theorem recOf_append_left (ps : List PushCall) (p : PushCall) {i : Nat}
    (h : i < ps.length) : recOf (ps ++ [p]) i = recOf ps i := by
  unfold recOf
  rw [psGet_append_left ps p h, List.take_append_of_le_length (by omega),
    List.take_append_of_le_length (by omega)]

theorem sumLens_append (ps : List PushCall) (p : PushCall) :
    sumLens (ps ++ [p]) = sumLens ps + p.choice_regions.length := by
  simp [sumLens]

theorem recOf_append_self (ps : List PushCall) (p : PushCall) :
    recOf (ps ++ [p]) ps.length =
      { next_constraint := lastIdx? ps p.member_region_vid
        definition_span := p.definition_span
        hidden_ty := p.hidden_ty
        key := p.key
        member_region_vid := p.member_region_vid
        start_index := sumLens ps
        end_index := sumLens ps + p.choice_regions.length } := by
  unfold recOf
  rw [psGet_append_self, List.take_left,
    List.take_of_length_le (by simp), sumLens_append]

/-- The closed form of a store built by a sequence of pushes. -/
theorem buildStore_spec (ps : List PushCall) :
    (buildStore ps).constraints = (List.range ps.length).map (recOf ps)
    ∧ (buildStore ps).choice_regions = (ps.map (fun p => p.choice_regions)).flatten
    ∧ (∀ k, fcGet (buildStore ps).first_constraints k = lastIdx? ps k)
    ∧ ((buildStore ps).first_constraints.map Prod.fst).Nodup
    ∧ (∀ k, k ∈ (buildStore ps).first_constraints.map Prod.fst ↔ k ∈ mrvs ps) := by
  induction ps using List.reverseRecOn with
  | nil =>
    refine ⟨rfl, rfl, fun k => rfl, ?_, ?_⟩
    · simp [buildStore, MemberConstraintSet.empty]
    · intro k
      simp [buildStore, MemberConstraintSet.empty, mrvs]
  | append_singleton ps p ih =>
    obtain ⟨ihc, ihr, ihg, ihn, ihm⟩ := ih
    have hclen : (buildStore ps).constraints.length = ps.length := by
      rw [ihc, List.length_map, List.length_range]
    have hrlen : (buildStore ps).choice_regions.length = sumLens ps := by
      rw [ihr, List.length_flatten, List.map_map]
      rfl
    rw [buildStore_append]
    unfold MemberConstraintSet.add_member_constraint
    refine ⟨?_, ?_, ?_, ?_, ?_⟩
    · -- constraints arena
      simp only
      have hlen2 : (ps ++ [p]).length = ps.length + 1 := by simp
      rw [hlen2, List.range_succ, List.map_append, ihc]
      congr 1
      · exact (List.map_congr_left
          (fun i hi => recOf_append_left ps p (List.mem_range.mp hi))).symm
      · simp only [List.map_cons, List.map_nil, recOf_append_self]
        rw [ihg, List.length_append, hrlen]
    · simp only
      rw [ihr, List.map_append, List.flatten_append]
      simp
    · intro k
      simp only
      by_cases hk : k = p.member_region_vid
      · subst hk
        rw [fcGet_fcInsert_self, hclen, lastIdx?_append_self ps p rfl]
      · rw [fcGet_fcInsert_ne _ _ _ hk, ihg,
          lastIdx?_append_ne ps p (fun hh => hk hh.symm)]
    · simp only
      rw [fcInsert_keys]
      by_cases hs : (fcGet (buildStore ps).first_constraints p.member_region_vid).isSome
      · simp [hs, ihn]
      · simp only [hs, if_false, Bool.false_eq_true]
        rw [List.nodup_append]
        refine ⟨ihn, List.nodup_singleton _, ?_⟩
        intro a ha hb
        rw [List.mem_singleton] at hb
        subst hb
        have hnone : fcGet (buildStore ps).first_constraints p.member_region_vid =
            none := Option.not_isSome_iff_eq_none.mp hs
        exact (fcGet_eq_none_iff _ _).mp hnone ha
    · intro k
      simp only
      rw [fcInsert_keys]
      have hmr : mrvs (ps ++ [p]) = mrvs ps ++ [p.member_region_vid] := by
        simp [mrvs]
      by_cases hs : (fcGet (buildStore ps).first_constraints p.member_region_vid).isSome
      · have hmem : p.member_region_vid ∈ mrvs ps := by
          rw [← ihm]
          rcases Option.isSome_iff_exists.mp hs with ⟨v, hv⟩
          exact List.mem_map_of_mem Prod.fst (fcGet_mem hv)
        simp only [hs, if_true]
        rw [hmr, List.mem_append, List.mem_singleton, ihm]
        constructor
        · exact Or.inl
        · rintro (h | rfl)
          · exact h
          · exact hmem
      · simp only [hs, if_false, Bool.false_eq_true]
        rw [hmr, List.mem_append, List.mem_append, List.mem_singleton, ihm k]

/-! ## Chains of a store built by pushes -/

theorem mem_idxsOf (ps : List PushCall) (k i : Nat) :
    i ∈ idxsOf ps k ↔ ∃ p, ps[i]? = some p ∧ p.member_region_vid = k := by
  unfold idxsOf
  rw [List.mem_filter, List.mem_range]
  constructor
  · rintro ⟨hi, hp⟩
    rw [decide_eq_true_eq] at hp
    cases hg : ps[i]? with
    | none => rw [hg] at hp; simp at hp
    | some p =>
      rw [hg] at hp
      simp at hp
      exact ⟨p, rfl, hp⟩
  · rintro ⟨p, hg, hk⟩
    refine ⟨lt_of_getElem?_some hg, ?_⟩
    rw [decide_eq_true_eq, hg]
    simp [hk]

theorem idxsOf_eq_nil_iff (ps : List PushCall) (k : Nat) :
    idxsOf ps k = [] ↔ k ∉ mrvs ps := by
  rw [List.eq_nil_iff_forall_not_mem]
  constructor
  · intro h hk
    rw [mrvs, List.mem_map] at hk
    obtain ⟨p, hp, hpk⟩ := hk
    obtain ⟨i, hi⟩ := List.mem_iff_getElem?.mp hp
    exact h i ((mem_idxsOf ps k i).mpr ⟨p, hi, hpk⟩)
  · intro h i hi
    obtain ⟨p, hg, hk⟩ := (mem_idxsOf ps k i).mp hi
    refine h ?_
    rw [mrvs, List.mem_map]
    exact ⟨p, List.mem_iff_getElem?.mpr ⟨i, hg⟩, hk⟩

theorem idxsOf_nodup (ps : List PushCall) (k : Nat) : (idxsOf ps k).Nodup :=
  List.Nodup.sublist (List.filter_sublist _) (List.nodup_range _)

theorem idxsOf_disjoint (ps : List PushCall) {k k' : Nat} (h : k ≠ k') :
    List.Disjoint (idxsOf ps k) (idxsOf ps k') := by
  intro i hi hi'
  obtain ⟨p, hg, hk⟩ := (mem_idxsOf ps k i).mp hi
  obtain ⟨p', hg', hk'⟩ := (mem_idxsOf ps k' i).mp hi'
  rw [hg] at hg'
  injection hg' with hpp
  subst hpp
  exact h (hk.symm.trans hk')

theorem buildStore_constraints_length (ps : List PushCall) :
    (buildStore ps).constraints.length = ps.length := by
  rw [(buildStore_spec ps).1, List.length_map, List.length_range]

theorem buildStore_constraints_append (ps : List PushCall) (p : PushCall) :
    (buildStore (ps ++ [p])).constraints =
      (buildStore ps).constraints ++ [recOf (ps ++ [p]) ps.length] := by
  rw [(buildStore_spec (ps ++ [p])).1, (buildStore_spec ps).1]
  have hlen2 : (ps ++ [p]).length = ps.length + 1 := by simp
  rw [hlen2, List.range_succ, List.map_append]
  congr 1
  exact List.map_congr_left (fun i hi => recOf_append_left ps p (List.mem_range.mp hi))

theorem buildStore_chainOk (ps : List PushCall) (k : Nat) :
    ∀ {h : Nat}, lastIdx? ps k = some h →
      ChainOk (buildStore ps).constraints h ((idxsOf ps k).reverse) := by
  induction ps using List.reverseRecOn with
  | nil =>
    intro h hl
    simp [lastIdx?, idxsOf] at hl
  | append_singleton ps p ih =>
    intro h hl
    have hc' := buildStore_constraints_append ps p
    have hn : (buildStore ps).constraints.length = ps.length :=
      buildStore_constraints_length ps
    have hget : (buildStore (ps ++ [p])).constraints[ps.length]? =
        some (recOf (ps ++ [p]) ps.length) := by
      rw [hc', List.getElem?_append_right (by omega)]
      simp [hn]
    by_cases hpk : p.member_region_vid = k
    · rw [lastIdx?_append_self ps p hpk] at hl
      injection hl with hl
      subst hl
      rw [idxsOf_append]
      simp only [hpk, if_true, List.reverse_append, List.reverse_cons,
        List.reverse_nil, List.nil_append, List.singleton_append]
      have hnext : (recOf (ps ++ [p]) ps.length).next_constraint = lastIdx? ps k := by
        rw [recOf_append_self]
        simp [hpk]
      cases hl0 : lastIdx? ps k with
      | none =>
        have hnil : idxsOf ps k = [] := List.getLast?_eq_none_iff.mp hl0
        rw [hnil]
        exact ChainOk.last _ _ hget (by rw [hnext, hl0])
      | some h0 =>
        have hold := ih hl0
        have hold' : ChainOk (buildStore (ps ++ [p])).constraints h0
            ((idxsOf ps k).reverse) := by
          rw [hc']
          exact hold.append_stable _
        have hh0 : ((idxsOf ps k).reverse).headD 0 = h0 := hold'.headD_eq
        exact ChainOk.cons _ _ h0 _ hget (by rw [hnext, hl0]) hold'
    · rw [lastIdx?_append_ne ps p hpk] at hl
      rw [idxsOf_append]
      simp only [hpk, if_false, List.append_nil]
      rw [hc']
      exact (ih hl).append_stable _

/-- `indices` on a built store enumerates the pushes with that key,
most recent first. -/
theorem buildStore_indices (ps : List PushCall) (k : Nat) :
    (buildStore ps).indices k = (idxsOf ps k).reverse := by
  unfold MemberConstraintSet.indices
  rw [(buildStore_spec ps).2.2.1 k]
  cases hl : lastIdx? ps k with
  | none =>
    have hnil : idxsOf ps k = [] := List.getLast?_eq_none_iff.mp hl
    rw [hnil, chain_go_none]
    rfl
  | some h =>
    have hch := buildStore_chainOk ps k hl
    have hnd : ((idxsOf ps k).reverse).Nodup :=
      List.nodup_reverse.mpr (idxsOf_nodup ps k)
    have hlen : ((idxsOf ps k).reverse).length ≤ (buildStore ps).constraints.length :=
      length_le_of_nodup_lt hnd hch.mem_lt
    exact chain_go_eq_of_chainOk hch _ hlen

/-! ## The remap rewrites only `next` links -/

theorem updNext_payload (cs : List MemberConstraint) (p : Nat) (v : Option Nat)
    (i : Nat) : ((updNext cs p v)[i]?).map payload = (cs[i]?).map payload := by
  unfold updNext
  cases hc : cs[p]? with
  | none => rfl
  | some c =>
    rw [List.getElem?_set]
    by_cases hpi : p = i
    · subst hpi
      simp [lt_of_getElem?_some hc, hc, payload]
    · simp [hpi]

theorem append_list_go_length (cs : List MemberConstraint) (s2 : Nat) :
    ∀ fuel p, (append_list_go cs s2 p fuel).length = cs.length := by
  intro fuel
  induction fuel with
  | zero =>
    intro p
    rfl
  | succ f ih =>
    intro p
    cases hc : cs[p]? with
    | none => simp [append_list_go, hc]
    | some r =>
      cases hn : r.next_constraint with
      | some q => simp [append_list_go, hc, hn, ih q]
      | none => simp [append_list_go, hc, hn, updNext_length]

theorem append_list_go_payload (cs : List MemberConstraint) (s2 : Nat) :
    ∀ (fuel p : Nat) (i : Nat), ((append_list_go cs s2 p fuel)[i]?).map payload =
      (cs[i]?).map payload := by
  intro fuel
  induction fuel with
  | zero =>
    intro p i
    rfl
  | succ f ih =>
    intro p i
    cases hc : cs[p]? with
    | none => simp [append_list_go, hc]
    | some r =>
      cases hn : r.next_constraint with
      | some q => simp [append_list_go, hc, hn, ih q]
      | none => simp [append_list_go, hc, hn, updNext_payload]

theorem into_mapped_go_length {R1 R2 : Type} [DecidableEq R2] (f : R1 → R2) :
    ∀ (old : List (R1 × Nat)) (fc2 : List (R2 × Nat)) (cs : List MemberConstraint),
      (into_mapped_go f old fc2 cs).2.length = cs.length := by
  intro old
  induction old with
  | nil =>
    intro fc2 cs
    rfl
  | cons e rest ih =>
    intro fc2 cs
    obtain ⟨r1, start1⟩ := e
    cases hg : fcGet fc2 (f r1) with
    | none =>
      simp only [into_mapped_go, hg]
      exact ih _ _
    | some s2 =>
      simp only [into_mapped_go, hg]
      rw [ih]
      unfold append_list
      rw [append_list_go_length]

theorem into_mapped_go_payload {R1 R2 : Type} [DecidableEq R2] (f : R1 → R2) :
    ∀ (old : List (R1 × Nat)) (fc2 : List (R2 × Nat)) (cs : List MemberConstraint)
      (i : Nat), (((into_mapped_go f old fc2 cs).2)[i]?).map payload =
      (cs[i]?).map payload := by
  intro old
  induction old with
  | nil =>
    intro fc2 cs i
    rfl
  | cons e rest ih =>
    intro fc2 cs i
    obtain ⟨r1, start1⟩ := e
    cases hg : fcGet fc2 (f r1) with
    | none =>
      simp only [into_mapped_go, hg]
      exact ih _ _ _
    | some s2 =>
      simp only [into_mapped_go, hg]
      rw [ih]
      unfold append_list
      rw [append_list_go_payload]

/-! ## The merge loop -/

theorem headD_append_of_ne_nil {α : Type} {L1 : List α} (h : L1 ≠ []) (L2 : List α)
    (d : α) : (L1 ++ L2).headD d = L1.headD d := by
  cases L1 with
  | nil => exact absurd rfl h
  | cons x M => rfl

theorem fcGet_derivedHeads {R2 : Type} [DecidableEq R2] (acc : List (R2 × List Nat))
    (r2 : R2) :
    fcGet (derivedHeads acc) r2 = (fcGet acc r2).map (fun L => L.headD 0) := by
  unfold derivedHeads
  exact fcGet_map_snd acc (fun L => L.headD 0) r2

theorem derivedHeads_fcInsert {R2 : Type} [DecidableEq R2] (acc : List (R2 × List Nat))
    (k : R2) (v : List Nat) :
    fcInsert (derivedHeads acc) k (v.headD 0) = derivedHeads (fcInsert acc k v) := by
  unfold derivedHeads
  exact fcInsert_map_snd acc (fun L => L.headD 0) k v

theorem into_mapped_go_cons_none {R1 R2 : Type} [DecidableEq R2] (f : R1 → R2)
    (k1 : R1) (h1 : Nat) (rest : List (R1 × Nat)) (fc2 : List (R2 × Nat))
    (cs : List MemberConstraint) (hg : fcGet fc2 (f k1) = none) :
    into_mapped_go f ((k1, h1) :: rest) fc2 cs =
      into_mapped_go f rest (fcInsert fc2 (f k1) h1) cs := by
  simp only [into_mapped_go, hg]

theorem into_mapped_go_cons_some {R1 R2 : Type} [DecidableEq R2] (f : R1 → R2)
    (k1 : R1) (h1 : Nat) (rest : List (R1 × Nat)) (fc2 : List (R2 × Nat))
    (cs : List MemberConstraint) {s2 : Nat} (hg : fcGet fc2 (f k1) = some s2) :
    into_mapped_go f ((k1, h1) :: rest) fc2 cs =
      into_mapped_go f rest (fcInsert fc2 (f k1) h1) (append_list cs h1 s2) := by
  simp only [into_mapped_go, hg]

theorem mergedChains_cons_none {R1 R2 : Type} [DecidableEq R2] (f : R1 → R2)
    (k1 : R1) (L1 : List Nat) (S : List (R1 × List Nat)) (acc : List (R2 × List Nat))
    (hg : fcGet acc (f k1) = none) (r2 : R2) :
    mergedChains f ((k1, L1) :: S) acc r2 =
      mergedChains f S (acc ++ [(f k1, L1)]) r2 := by
  unfold mergedChains accLookup
  by_cases hr : f k1 = r2
  · subst hr
    rw [fcGet_append_of_none _ hg]
    simp [List.filter_cons, hg, fcGet]
  · have hgr : fcGet (acc ++ [(f k1, L1)]) r2 = fcGet acc r2 := by
      cases hgr2 : fcGet acc r2 with
      | none =>
        rw [fcGet_append_of_none _ hgr2]
        simp [fcGet, hr]
      | some w => rw [fcGet_append_of_some _ hgr2]
    rw [hgr]
    simp [List.filter_cons, hr]

theorem mergedChains_cons_some {R1 R2 : Type} [DecidableEq R2] (f : R1 → R2)
    (k1 : R1) (L1 : List Nat) (S : List (R1 × List Nat)) (acc : List (R2 × List Nat))
    {L2 : List Nat} (hg : fcGet acc (f k1) = some L2) (r2 : R2) :
    mergedChains f ((k1, L1) :: S) acc r2 =
      mergedChains f S (fcReplace acc (f k1) (L1 ++ L2)) r2 := by
  unfold mergedChains accLookup
  by_cases hr : f k1 = r2
  · subst hr
    rw [fcGet_fcReplace_self (L1 ++ L2) hg, hg]
    simp [List.filter_cons]
  · rw [fcGet_fcReplace_ne acc (f k1) (L1 ++ L2) (fun hh => hr hh.symm)]
    simp [List.filter_cons, hr]

/-- Invariant proof for the merge loop of `into_mapped`: processing the
entries `S` (with their chains) on top of an accumulation `acc` of disjoint
chains produces, for every new key, the chains of the colliding entries in
reverse processing order followed by the previously accumulated chain. -/
theorem into_mapped_go_spec {R1 R2 : Type} [DecidableEq R2] (f : R1 → R2) :
    ∀ (S : List (R1 × List Nat)) (acc : List (R2 × List Nat))
      (cs : List MemberConstraint),
      (acc.map Prod.fst).Nodup →
      (∀ q ∈ acc, q.2 ≠ [] ∧ ChainOk cs (q.2.headD 0) q.2) →
      (∀ q ∈ S, q.2 ≠ [] ∧ ChainOk cs (q.2.headD 0) q.2) →
      ((acc.map Prod.snd ++ S.map Prod.snd).flatten).Nodup →
      ∀ r2 : R2,
        resultChain (into_mapped_go f (S.map (fun q => (q.1, q.2.headD 0)))
          (derivedHeads acc) cs) r2 = mergedChains f S acc r2 := by
  intro S
  induction S with
  | nil =>
    intro acc cs hkeys hacc hS H r2
    simp only [List.map_nil, into_mapped_go]
    unfold resultChain mergedChains
    simp only [List.filter_nil, List.map_nil, List.reverse_nil, List.flatten_nil,
      List.nil_append]
    rw [fcGet_derivedHeads]
    cases hg : fcGet acc r2 with
    | none =>
      simp only [Option.map_none']
      rw [chain_go_none]
      unfold accLookup
      rw [hg]
      rfl
    | some L =>
      have hmem := fcGet_mem hg
      obtain ⟨hne, hch⟩ := hacc (r2, L) hmem
      have hEach := (List.nodup_flatten.mp H).1
      have hnd : L.Nodup := hEach L
        (List.mem_append_left _ (List.mem_map_of_mem Prod.snd hmem))
      simp only [Option.map_some']
      rw [chain_go_eq_of_chainOk hch _ (length_le_of_nodup_lt hnd hch.mem_lt)]
      unfold accLookup
      rw [hg]
      rfl
  | cons e S ih =>
    intro acc cs hkeys hacc hS H r2
    obtain ⟨k1, L1⟩ := e
    obtain ⟨hL1ne, hL1ch⟩ := hS (k1, L1) (List.mem_cons_self _ _)
    simp only [List.map_cons] at H ⊢
    obtain ⟨hEach, hPair⟩ := List.nodup_flatten.mp H
    have hL1nd : L1.Nodup := hEach L1
      (List.mem_append_right _ (List.mem_cons_self _ _))
    rw [List.pairwise_append] at hPair
    obtain ⟨hPairAcc, hPairS, hCross⟩ := hPair
    rw [List.pairwise_cons] at hPairS
    obtain ⟨hL1disjS, hPairS2⟩ := hPairS
    cases hg : fcGet acc (f k1) with
    | none =>
      have hgd : fcGet (derivedHeads acc) (f k1) = none := by
        rw [fcGet_derivedHeads, hg]
        rfl
      rw [into_mapped_go_cons_none f k1 _ _ _ _ hgd]
      have hins : fcInsert (derivedHeads acc) (f k1) (L1.headD 0) =
          derivedHeads (acc ++ [(f k1, L1)]) := by
        rw [derivedHeads_fcInsert]
        congr 1
        unfold fcInsert
        rw [hg]
        simp
      rw [hins, mergedChains_cons_none f k1 L1 S acc hg r2]
      apply ih
      · rw [List.map_append]
        simp only [List.map_cons, List.map_nil]
        rw [List.nodup_append]
        refine ⟨hkeys, List.nodup_singleton _, ?_⟩
        intro a ha hb
        rw [List.mem_singleton] at hb
        subst hb
        exact (fcGet_eq_none_iff acc (f k1)).mp hg ha
      · intro q hq
        rw [List.mem_append, List.mem_singleton] at hq
        rcases hq with hq | rfl
        · exact hacc q hq
        · exact ⟨hL1ne, hL1ch⟩
      · intro q hq
        exact hS q (List.mem_cons_of_mem _ hq)
      · rw [List.map_append]
        simp only [List.map_cons, List.map_nil]
        have hassoc : (acc.map Prod.snd ++ [L1]) ++ S.map Prod.snd =
            acc.map Prod.snd ++ L1 :: S.map Prod.snd := by
          rw [List.append_assoc, List.singleton_append]
        rw [hassoc]
        exact H
    | some L2 =>
      have hmem2 := fcGet_mem hg
      obtain ⟨hL2ne, hL2ch⟩ := hacc (f k1, L2) hmem2
      have hL2mem : L2 ∈ acc.map Prod.snd := List.mem_map_of_mem Prod.snd hmem2
      have hL2nd : L2.Nodup := hEach L2 (List.mem_append_left _ hL2mem)
      have hdisj21 : List.Disjoint L2 L1 :=
        hCross L2 hL2mem L1 (List.mem_cons_self _ _)
      have hgd : fcGet (derivedHeads acc) (f k1) = some (L2.headD 0) := by
        rw [fcGet_derivedHeads, hg]
        rfl
      rw [into_mapped_go_cons_some f k1 _ _ _ _ hgd]
      have happ : append_list cs (L1.headD 0) (L2.headD 0) =
          updNext cs (L1.getLastD 0) (some (L2.headD 0)) :=
        append_list_eq hL1ch hL1nd _
      have hpL1 : L1.getLastD 0 ∈ L1 := getLastD_mem hL1ne 0
      have hpL2 : L1.getLastD 0 ∉ L2 := fun hh => hdisj21 hh hpL1
      have hlinked : ChainOk (updNext cs (L1.getLastD 0) (some (L2.headD 0)))
          (L1.headD 0) (L1 ++ L2) := hL1ch.link hL1nd hL2ch hpL2
      rw [happ]
      have hins : fcInsert (derivedHeads acc) (f k1) (L1.headD 0) =
          derivedHeads (fcReplace acc (f k1) (L1 ++ L2)) := by
        have h1 : (L1 ++ L2).headD 0 = L1.headD 0 := headD_append_of_ne_nil hL1ne L2 0
        rw [← h1, derivedHeads_fcInsert]
        congr 1
        unfold fcInsert
        rw [hg]
        simp
      rw [hins, mergedChains_cons_some f k1 L1 S acc hg r2]
      obtain ⟨a1, a2, hacc_eq, hrepl_eq, hnotin⟩ := fcReplace_decomp (L1 ++ L2) hg
      apply ih
      · rw [fcReplace_keys]
        exact hkeys
      · intro q hq
        rw [hrepl_eq, List.mem_append, List.mem_cons] at hq
        rcases hq with hq | hq | hq
        · have hqacc : q ∈ acc := by
            rw [hacc_eq]
            exact List.mem_append_left _ hq
          obtain ⟨hqne, hqch⟩ := hacc q hqacc
          refine ⟨hqne, ?_⟩
          have hdisj : List.Disjoint q.2 L1 :=
            hCross q.2 (List.mem_map_of_mem Prod.snd hqacc) L1 (List.mem_cons_self _ _)
          exact hqch.updNext_stable (fun hh => hdisj hh hpL1) _
        · subst hq
          refine ⟨by simp [hL1ne], ?_⟩
          rw [headD_append_of_ne_nil hL1ne L2 0]
          exact hlinked
        · have hqacc : q ∈ acc := by
            rw [hacc_eq]
            exact List.mem_append_right _ (List.mem_cons_of_mem _ hq)
          obtain ⟨hqne, hqch⟩ := hacc q hqacc
          refine ⟨hqne, ?_⟩
          have hdisj : List.Disjoint q.2 L1 :=
            hCross q.2 (List.mem_map_of_mem Prod.snd hqacc) L1 (List.mem_cons_self _ _)
          exact hqch.updNext_stable (fun hh => hdisj hh hpL1) _
      · intro q hq
        obtain ⟨hqne, hqch⟩ := hS q (List.mem_cons_of_mem _ hq)
        refine ⟨hqne, ?_⟩
        have hdisj : List.Disjoint L1 q.2 :=
          hL1disjS q.2 (List.mem_map_of_mem Prod.snd hq)
        exact hqch.updNext_stable (fun hh => hdisj hpL1 hh) _
      · have hacc_snd : acc.map Prod.snd = a1.map Prod.snd ++ L2 :: a2.map Prod.snd := by
          rw [hacc_eq]
          simp
        have hrepl_snd : (fcReplace acc (f k1) (L1 ++ L2)).map Prod.snd =
            a1.map Prod.snd ++ (L1 ++ L2) :: a2.map Prod.snd := by
          rw [hrepl_eq]
          simp
        rw [hrepl_snd]
        rw [hacc_snd] at H
        have hperm : (((a1.map Prod.snd ++ L2 :: a2.map Prod.snd) ++
            L1 :: S.map Prod.snd).flatten).Perm
            (((a1.map Prod.snd ++ (L1 ++ L2) :: a2.map Prod.snd) ++
            S.map Prod.snd).flatten) := by
          rw [List.perm_iff_count]
          intro a
          simp only [List.flatten_append, List.flatten_cons, List.count_append]
          omega
        exact hperm.nodup H

theorem fcGet_of_mem_nodup {α β : Type} [DecidableEq α] {m : List (α × β)}
    (hnd : (m.map Prod.fst).Nodup) {q : α × β} (hq : q ∈ m) :
    fcGet m q.1 = some q.2 := by
  induction m with
  | nil => cases hq
  | cons p m ih =>
    rw [List.map_cons, List.nodup_cons] at hnd
    obtain ⟨hp, hnd2⟩ := hnd
    rcases List.mem_cons.mp hq with rfl | hq2
    · simp [fcGet]
    · have hne : ¬p.1 = q.1 := by
        intro hh
        refine hp ?_
        rw [hh]
        exact List.mem_map_of_mem Prod.fst hq2
      simp [fcGet, hne, ih hnd2 hq2]

theorem buildStore_entry_head (ps : List PushCall) {e : Nat × Nat}
    (he : e ∈ (buildStore ps).first_constraints) :
    ((idxsOf ps e.1).reverse).headD 0 = e.2 ∧ lastIdx? ps e.1 = some e.2 := by
  have hg : fcGet (buildStore ps).first_constraints e.1 = some e.2 :=
    fcGet_of_mem_nodup (buildStore_spec ps).2.2.2.1 he
  have hl : lastIdx? ps e.1 = some e.2 := by
    rw [← (buildStore_spec ps).2.2.1 e.1]
    exact hg
  refine ⟨?_, hl⟩
  unfold lastIdx? at hl
  rw [List.headD_eq_head?, ← List.getLast?_eq_head?_reverse, hl]
  rfl

theorem filter_map_snd_eq {α : Type} (l : List (α × Nat)) (c : α → List Nat)
    (p : α → Bool) :
    ((l.map (fun e => (e.1, c e.1))).filter (fun q => p q.1)).map Prod.snd =
    ((l.map Prod.fst).filter p).map c := by
  induction l with
  | nil => rfl
  | cons e l ih =>
    simp only [List.map_cons, List.filter_cons]
    by_cases hp : p e.1 <;> simp [hp, ih]

/-- Full description of the chains after `into_mapped` on a store built by
pushes: the chain of a new key is the concatenation, later-processed old keys
first, of the old chains of the old keys mapping to it. -/
theorem into_mapped_indices_general (ps : List PushCall) {R2 : Type}
    [DecidableEq R2] (f : Nat → R2) (r2 : R2) :
    ((buildStore ps).into_mapped f).indices r2 =
      ((((buildStore ps).first_constraints.map Prod.fst).filter
          (fun k => f k = r2)).reverse.map
        (fun k => (buildStore ps).indices k)).flatten := by
  have hchains : ∀ q ∈ (buildStore ps).first_constraints.map
      (fun e => (e.1, (idxsOf ps e.1).reverse)),
      q.2 ≠ [] ∧ ChainOk (buildStore ps).constraints (q.2.headD 0) q.2 := by
    intro q hq
    rw [List.mem_map] at hq
    obtain ⟨e, he, rfl⟩ := hq
    obtain ⟨hhead, hlast⟩ := buildStore_entry_head ps he
    constructor
    · intro hh
      rw [List.reverse_eq_nil_iff] at hh
      unfold lastIdx? at hlast
      rw [hh] at hlast
      cases hlast
    · rw [hhead]
      exact buildStore_chainOk ps e.1 hlast
  have hnodup : ((([] : List (R2 × List Nat)).map Prod.snd ++
      ((buildStore ps).first_constraints.map
        (fun e => (e.1, (idxsOf ps e.1).reverse))).map Prod.snd).flatten).Nodup := by
    simp only [List.map_nil, List.nil_append, List.map_map]
    rw [List.nodup_flatten]
    constructor
    · intro l hl
      rw [List.mem_map] at hl
      obtain ⟨e, he, rfl⟩ := hl
      exact List.nodup_reverse.mpr (idxsOf_nodup ps e.1)
    · have hkeys : ((buildStore ps).first_constraints.map Prod.fst).Nodup :=
        (buildStore_spec ps).2.2.2.1
      have hkp : List.Pairwise (fun a b => a ≠ b)
          ((buildStore ps).first_constraints.map Prod.fst) := hkeys
      have hkp2 := List.pairwise_map.mp hkp
      rw [List.pairwise_map]
      refine List.Pairwise.imp ?_ hkp2
      intro e e' hne x hx hx'
      simp only [Function.comp] at hx hx'
      rw [List.mem_reverse] at hx hx'
      exact idxsOf_disjoint ps hne hx hx'
  have hSshrink : ((buildStore ps).first_constraints.map
      (fun e => (e.1, (idxsOf ps e.1).reverse))).map (fun q => (q.1, q.2.headD 0)) =
      (buildStore ps).first_constraints := by
    rw [List.map_map]
    have : ∀ e ∈ (buildStore ps).first_constraints,
        ((fun q : Nat × List Nat => (q.1, q.2.headD 0)) ∘
          (fun e : Nat × Nat => (e.1, (idxsOf ps e.1).reverse))) e = e := by
      intro e he
      obtain ⟨hhead, _⟩ := buildStore_entry_head ps he
      simp only [Function.comp]
      rw [hhead]
    rw [List.map_congr_left this]
    simp
  have hmain := into_mapped_go_spec f
    ((buildStore ps).first_constraints.map (fun e => (e.1, (idxsOf ps e.1).reverse)))
    [] (buildStore ps).constraints (by simp) (by intro q hq; cases hq)
    hchains hnodup r2
  rw [hSshrink] at hmain
  have hgoalL : ((buildStore ps).into_mapped f).indices r2 =
      resultChain (into_mapped_go f (buildStore ps).first_constraints []
        (buildStore ps).constraints) r2 := rfl
  have hderived : derivedHeads ([] : List (R2 × List Nat)) = [] := rfl
  rw [hderived] at hmain
  rw [hgoalL, hmain]
  unfold mergedChains accLookup
  simp only [fcGet, Option.getD_none, List.append_nil]
  rw [filter_map_snd_eq (buildStore ps).first_constraints
    (fun k => (idxsOf ps k).reverse) (fun k => decide (f k = r2))]
  rw [List.map_reverse]
  congr 1
  congr 1
  apply List.map_congr_left
  intro k hk
  rw [buildStore_indices]

/-! ## Counting elements across chains -/

theorem sum_map_ite_eq {β : Type} [DecidableEq β] {N : List β} (hN : N.Nodup)
    {b : β} (hb : b ∈ N) (v : Nat) :
    (N.map (fun r => if b = r then v else 0)).sum = v := by
  induction N with
  | nil => cases hb
  | cons x N ih =>
    rw [List.nodup_cons] at hN
    obtain ⟨hx, hN2⟩ := hN
    rcases List.mem_cons.mp hb with rfl | hb2
    · simp only [List.map_cons, List.sum_cons, if_pos rfl]
      have hz : (N.map (fun r => if b = r then v else 0)).sum = 0 := by
        apply List.sum_eq_zero
        intro y hy
        rw [List.mem_map] at hy
        obtain ⟨r, hr, rfl⟩ := hy
        rw [if_neg]
        intro hh
        refine hx ?_
        rw [hh]
        exact hr
      rw [hz]
      simp
    · simp only [List.map_cons, List.sum_cons]
      rw [if_neg, ih hN2 hb2, Nat.zero_add]
      intro hh
      refine hx ?_
      rw [← hh]
      exact hb2

theorem sum_map_zero_ite {β : Type} [DecidableEq β] (N : List β) (b : β)
    (hb : ∀ r ∈ N, b ≠ r) (v : Nat) :
    (N.map (fun r => if b = r then v else 0)).sum = 0 := by
  apply List.sum_eq_zero
  intro y hy
  rw [List.mem_map] at hy
  obtain ⟨r, hr, rfl⟩ := hy
  rw [if_neg (hb r hr)]

theorem sum_map_add_split {α : Type} (l : List α) (f g : α → Nat) :
    (l.map (fun x => f x + g x)).sum = (l.map f).sum + (l.map g).sum := by
  induction l with
  | nil => rfl
  | cons x l ih =>
    simp only [List.map_cons, List.sum_cons, ih]
    omega

/-- Regrouping a sum over `K` by the value of `g`. -/
theorem regroup_sum {α β : Type} [DecidableEq β] (N : List β) (hN : N.Nodup)
    (K : List α) (g : α → β) (hK : ∀ k ∈ K, g k ∈ N) (c : α → Nat) :
    (N.map (fun r => ((K.filter (fun k => g k = r)).map c).sum)).sum =
      (K.map c).sum := by
  induction K with
  | nil => simp
  | cons k0 K ih =>
    have hK2 : ∀ k ∈ K, g k ∈ N := fun k hk => hK k (List.mem_cons_of_mem _ hk)
    have hsplit : ∀ r ∈ N, (((k0 :: K).filter (fun k => g k = r)).map c).sum =
        (if g k0 = r then c k0 else 0) +
          ((K.filter (fun k => g k = r)).map c).sum := by
      intro r _
      rw [List.filter_cons]
      by_cases h : g k0 = r <;> simp [h]
    rw [List.map_congr_left hsplit, sum_map_add_split, ih hK2,
      sum_map_ite_eq hN (hK k0 (List.mem_cons_self _ _)) (c k0)]
    simp

theorem count_range_eq (n a : Nat) :
    (List.range n).count a = if a < n then 1 else 0 := by
  by_cases h : a < n
  · rw [if_pos h]
    exact List.count_eq_one_of_mem (List.nodup_range n) (List.mem_range.mpr h)
  · rw [if_neg h]
    exact List.count_eq_zero_of_not_mem (fun hh => h (List.mem_range.mp hh))

theorem mem_idxsOf_iff (ps : List PushCall) (k a : Nat) :
    a ∈ idxsOf ps k ↔ a < ps.length ∧ (psGet ps a).member_region_vid = k := by
  rw [mem_idxsOf]
  constructor
  · rintro ⟨p, hg, hk⟩
    refine ⟨lt_of_getElem?_some hg, ?_⟩
    unfold psGet
    rw [List.getD_eq_getElem?_getD, hg]
    exact hk
  · rintro ⟨hlt, hk⟩
    have hg := List.getElem?_eq_getElem hlt
    refine ⟨ps[a], hg, ?_⟩
    unfold psGet at hk
    rw [List.getD_eq_getElem?_getD, hg] at hk
    exact hk

theorem count_idxsOf (ps : List PushCall) (k a : Nat) :
    (idxsOf ps k).count a =
      if (psGet ps a).member_region_vid = k then
        (if a < ps.length then 1 else 0) else 0 := by
  by_cases hm : a ∈ idxsOf ps k
  · obtain ⟨hlt, hk⟩ := (mem_idxsOf_iff ps k a).mp hm
    rw [List.count_eq_one_of_mem (idxsOf_nodup ps k) hm, if_pos hk, if_pos hlt]
  · rw [List.count_eq_zero_of_not_mem hm]
    rw [mem_idxsOf_iff] at hm
    push_neg at hm
    by_cases hk : (psGet ps a).member_region_vid = k
    · rw [if_pos hk]
      by_cases hlt : a < ps.length
      · exact absurd hk (hm hlt)
      · rw [if_neg hlt]
    · rw [if_neg hk]

theorem count_indices_buildStore (ps : List PushCall) (k a : Nat) :
    ((buildStore ps).indices k).count a =
      if (psGet ps a).member_region_vid = k then
        (if a < ps.length then 1 else 0) else 0 := by
  rw [buildStore_indices, List.count_reverse, count_idxsOf]

/-- Before the remap, walking every head's chain visits each record exactly
once: the chains partition `0..n`. -/
theorem buildStore_chains_perm (ps : List PushCall) :
    ((((buildStore ps).first_constraints.map Prod.fst).map
      (fun k => (buildStore ps).indices k)).flatten).Perm
      (List.range ps.length) := by
  have hkeys : ((buildStore ps).first_constraints.map Prod.fst).Nodup :=
    (buildStore_spec ps).2.2.2.1
  rw [List.perm_iff_count]
  intro a
  rw [List.count_flatten, List.map_map, count_range_eq]
  have hpt : ∀ k ∈ (buildStore ps).first_constraints.map Prod.fst,
      ((fun x => List.count a x) ∘ fun k => (buildStore ps).indices k) k =
      (fun r => if (psGet ps a).member_region_vid = r then
        (if a < ps.length then 1 else 0) else 0) k := by
    intro k _
    simp only [Function.comp]
    exact count_indices_buildStore ps k a
  rw [List.map_congr_left hpt]
  by_cases hlt : a < ps.length
  · rw [if_pos hlt]
    have hone : (if a < ps.length then 1 else 0) = 1 := if_pos hlt
    simp only [hone]
    have hmem : (psGet ps a).member_region_vid ∈
        (buildStore ps).first_constraints.map Prod.fst := by
      rw [(buildStore_spec ps).2.2.2.2]
      unfold mrvs
      refine List.mem_map_of_mem _ ?_
      unfold psGet
      rw [List.getD_eq_getElem?_getD, List.getElem?_eq_getElem hlt]
      exact List.getElem_mem hlt
    exact sum_map_ite_eq hkeys hmem 1
  · rw [if_neg hlt]
    have hzero : (if a < ps.length then 1 else 0) = 0 := if_neg hlt
    simp only [hzero, ite_self]
    apply List.sum_eq_zero
    intro y hy
    rw [List.mem_map] at hy
    obtain ⟨r, _, rfl⟩ := hy
    rfl

theorem into_mapped_go_keys {R1 R2 : Type} [DecidableEq R2] (f : R1 → R2) :
    ∀ (old : List (R1 × Nat)) (fc2 : List (R2 × Nat)) (cs : List MemberConstraint),
      (fc2.map Prod.fst).Nodup →
      ((into_mapped_go f old fc2 cs).1.map Prod.fst).Nodup ∧
      (∀ r2, r2 ∈ (into_mapped_go f old fc2 cs).1.map Prod.fst ↔
        r2 ∈ fc2.map Prod.fst ∨ ∃ e ∈ old, f e.1 = r2) := by
  intro old
  induction old with
  | nil =>
    intro fc2 cs h
    refine ⟨h, fun r2 => ?_⟩
    simp [into_mapped_go]
  | cons e rest ih =>
    intro fc2 cs h
    obtain ⟨r1, h1⟩ := e
    have hins_keys : ((fcInsert fc2 (f r1) h1).map Prod.fst).Nodup := by
      rw [fcInsert_keys]
      cases hg2 : fcGet fc2 (f r1) with
      | none =>
        simp only [Option.isSome_none, Bool.false_eq_true, if_false]
        rw [List.nodup_append]
        refine ⟨h, List.nodup_singleton _, ?_⟩
        intro a ha hb
        rw [List.mem_singleton] at hb
        subst hb
        exact (fcGet_eq_none_iff fc2 (f r1)).mp hg2 ha
      | some s2 =>
        simp only [Option.isSome_some, if_true]
        exact h
    have hins_mem : ∀ r2, r2 ∈ (fcInsert fc2 (f r1) h1).map Prod.fst ↔
        r2 ∈ fc2.map Prod.fst ∨ r2 = f r1 := by
      intro r2
      rw [fcInsert_keys]
      cases hg2 : fcGet fc2 (f r1) with
      | none =>
        simp only [Option.isSome_none, Bool.false_eq_true, if_false,
          List.mem_append, List.mem_singleton]
      | some s2 =>
        simp only [Option.isSome_some, if_true]
        constructor
        · exact Or.inl
        · rintro (h2 | rfl)
          · exact h2
          · exact List.mem_map_of_mem Prod.fst (fcGet_mem hg2)
    cases hg : fcGet fc2 (f r1) with
    | none =>
      rw [into_mapped_go_cons_none f r1 _ _ _ _ hg]
      obtain ⟨hn, hm⟩ := ih (fcInsert fc2 (f r1) h1) cs hins_keys
      refine ⟨hn, fun r2 => ?_⟩
      rw [hm r2, hins_mem r2]
      constructor
      · rintro ((h2 | h2) | h2)
        · exact Or.inl h2
        · exact Or.inr ⟨(r1, h1), List.mem_cons_self _ _, h2.symm⟩
        · obtain ⟨e, he, hfe⟩ := h2
          exact Or.inr ⟨e, List.mem_cons_of_mem _ he, hfe⟩
      · rintro (h2 | ⟨e, he, hfe⟩)
        · exact Or.inl (Or.inl h2)
        · rcases List.mem_cons.mp he with rfl | he2
          · exact Or.inl (Or.inr hfe.symm)
          · exact Or.inr ⟨e, he2, hfe⟩
    | some s2 =>
      rw [into_mapped_go_cons_some f r1 _ _ _ _ hg]
      obtain ⟨hn, hm⟩ := ih (fcInsert fc2 (f r1) h1) _ hins_keys
      refine ⟨hn, fun r2 => ?_⟩
      rw [hm r2, hins_mem r2]
      constructor
      · rintro ((h2 | h2) | h2)
        · exact Or.inl h2
        · exact Or.inr ⟨(r1, h1), List.mem_cons_self _ _, h2.symm⟩
        · obtain ⟨e, he, hfe⟩ := h2
          exact Or.inr ⟨e, List.mem_cons_of_mem _ he, hfe⟩
      · rintro (h2 | ⟨e, he, hfe⟩)
        · exact Or.inl (Or.inl h2)
        · rcases List.mem_cons.mp he with rfl | he2
          · exact Or.inl (Or.inr hfe.symm)
          · exact Or.inr ⟨e, he2, hfe⟩

theorem into_mapped_keys (ps : List PushCall) {R2 : Type} [DecidableEq R2]
    (f : Nat → R2) :
    ((((buildStore ps).into_mapped f).first_constraints.map Prod.fst)).Nodup ∧
    ∀ r2, r2 ∈ (((buildStore ps).into_mapped f).first_constraints.map Prod.fst) ↔
      ∃ k ∈ (buildStore ps).first_constraints.map Prod.fst, f k = r2 := by
  have hfc : ((buildStore ps).into_mapped f).first_constraints =
      (into_mapped_go f (buildStore ps).first_constraints []
        (buildStore ps).constraints).1 := rfl
  obtain ⟨h1, h2⟩ := into_mapped_go_keys f (buildStore ps).first_constraints []
    (buildStore ps).constraints (by simp)
  rw [hfc]
  refine ⟨h1, fun r2 => ?_⟩
  rw [h2 r2]
  simp only [List.map_nil, List.not_mem_nil, false_or]
  constructor
  · rintro ⟨e, he, hfe⟩
    exact ⟨e.1, List.mem_map_of_mem Prod.fst he, hfe⟩
  · rintro ⟨k, hk, hfk⟩
    rw [List.mem_map] at hk
    obtain ⟨e, he, rfl⟩ := hk
    exact ⟨e, he, hfk⟩

theorem count_into_mapped_indices (ps : List PushCall) {R2 : Type} [DecidableEq R2]
    (f : Nat → R2) (r2 : R2) (a : Nat) :
    (((buildStore ps).into_mapped f).indices r2).count a =
      ((((buildStore ps).first_constraints.map Prod.fst).filter
        (fun k => f k = r2)).map
        (fun k => ((buildStore ps).indices k).count a)).sum := by
  rw [into_mapped_indices_general, List.count_flatten, List.map_map,
    List.map_reverse, List.sum_reverse]
  exact congrArg List.sum (List.map_congr_left (fun k _ => rfl))

/-- After the remap, walking every new head's chain still visits each record
exactly once: no record is duplicated or dropped. -/
theorem into_mapped_chains_perm (ps : List PushCall) {R2 : Type} [DecidableEq R2]
    (f : Nat → R2) :
    (((((buildStore ps).into_mapped f).first_constraints.map Prod.fst).map
      (fun r2 => ((buildStore ps).into_mapped f).indices r2)).flatten).Perm
      (List.range ps.length) := by
  obtain ⟨hnew_nodup, hnew_mem⟩ := into_mapped_keys ps f
  rw [List.perm_iff_count]
  intro a
  rw [List.count_flatten, List.map_map]
  have hpt : ∀ r2 ∈ ((buildStore ps).into_mapped f).first_constraints.map Prod.fst,
      ((fun x => List.count a x) ∘
        fun r2 => ((buildStore ps).into_mapped f).indices r2) r2 =
      (fun r2 => ((((buildStore ps).first_constraints.map Prod.fst).filter
        (fun k => f k = r2)).map
        (fun k => ((buildStore ps).indices k).count a)).sum) r2 := by
    intro r2 _
    simp only [Function.comp]
    exact count_into_mapped_indices ps f r2 a
  rw [List.map_congr_left hpt]
  have hK : ∀ k ∈ (buildStore ps).first_constraints.map Prod.fst,
      f k ∈ ((buildStore ps).into_mapped f).first_constraints.map Prod.fst :=
    fun k hk => (hnew_mem (f k)).mpr ⟨k, hk, rfl⟩
  rw [regroup_sum _ hnew_nodup _ f hK (fun k => ((buildStore ps).indices k).count a)]
  have hpre := buildStore_chains_perm ps
  rw [List.perm_iff_count] at hpre
  have hprea := hpre a
  rw [List.count_flatten, List.map_map] at hprea
  rw [← hprea]
  exact congrArg List.sum (List.map_congr_left (fun k _ => rfl))

/-- Every chain of the remapped store is acyclic (visits no record twice). -/
theorem into_mapped_indices_nodup (ps : List PushCall) {R2 : Type} [DecidableEq R2]
    (f : Nat → R2) (r2 : R2) :
    (((buildStore ps).into_mapped f).indices r2).Nodup := by
  rw [into_mapped_indices_general, List.nodup_flatten]
  constructor
  · intro l hl
    rw [List.mem_map] at hl
    obtain ⟨k, _, rfl⟩ := hl
    rw [buildStore_indices]
    exact List.nodup_reverse.mpr (idxsOf_nodup ps k)
  · rw [List.pairwise_map, List.pairwise_reverse]
    apply List.Pairwise.filter
    have hkeys : ((buildStore ps).first_constraints.map Prod.fst).Nodup :=
      (buildStore_spec ps).2.2.2.1
    have hkp : List.Pairwise (fun a b => a ≠ b)
        ((buildStore ps).first_constraints.map Prod.fst) := hkeys
    refine hkp.imp ?_
    intro k k' hne
    rw [buildStore_indices, buildStore_indices]
    intro x hx hx'
    rw [List.mem_reverse] at hx hx'
    exact idxsOf_disjoint ps (fun hh => hne hh.symm) hx hx'

/-! ## Choice-region slices -/

theorem flatten_slice (ls : List (List Nat)) :
    ∀ i, i < ls.length →
      ((ls.flatten.drop (((ls.take i).map List.length).sum)).take
        (ls.getD i []).length) = ls.getD i [] := by
  induction ls with
  | nil =>
    intro i h
    cases h
  | cons x ls ih =>
    intro i hi
    cases i with
    | zero =>
      simp only [List.take_zero, List.map_nil, List.sum_nil, List.drop_zero,
        List.flatten_cons]
      have hg : (x :: ls).getD 0 [] = x := rfl
      rw [hg, List.take_left]
    | succ j =>
      have hj : j < ls.length := by simpa using hi
      have h1 : (x :: ls).take (j + 1) = x :: ls.take j := rfl
      have h2 : (x :: ls).getD (j + 1) [] = ls.getD j [] := rfl
      rw [h1, h2]
      simp only [List.map_cons, List.sum_cons, List.flatten_cons]
      rw [List.drop_append]
      exact ih j hj

theorem buildStore_record (ps : List PushCall) {i : Nat} (h : i < ps.length) :
    (buildStore ps).constraints[i]? = some (recOf ps i) := by
  rw [(buildStore_spec ps).1, List.getElem?_map, List.getElem?_range h]
  rfl

theorem psGet_eq_getElem (ps : List PushCall) {i : Nat} (h : i < ps.length) :
    psGet ps i = ps[i] := by
  unfold psGet
  rw [List.getD_eq_getElem?_getD, List.getElem?_eq_getElem h]
  rfl

theorem sumLens_take_succ (ps : List PushCall) {i : Nat} (h : i < ps.length) :
    sumLens (ps.take (i + 1)) =
      sumLens (ps.take i) + (psGet ps i).choice_regions.length := by
  rw [List.take_succ, List.getElem?_eq_getElem h]
  have ht : (some ps[i]).toList = [ps[i]] := rfl
  rw [ht, sumLens_append, psGet_eq_getElem ps h]

/-- `choice_regions` of record `i` of a built store returns exactly the list
passed to push `i`. -/
theorem buildStore_choice_regions_at (ps : List PushCall) {i : Nat}
    (h : i < ps.length) :
    (buildStore ps).choice_regions_at i = some (psGet ps i).choice_regions := by
  unfold MemberConstraintSet.choice_regions_at
  rw [buildStore_record ps h]
  simp only [Option.map_some']
  congr 1
  have hrec_start : (recOf ps i).start_index = sumLens (ps.take i) := rfl
  have hrec_end : (recOf ps i).end_index = sumLens (ps.take (i + 1)) := rfl
  rw [hrec_start, hrec_end, (buildStore_spec ps).2.1, sumLens_take_succ ps h]
  have hsub : sumLens (ps.take i) + (psGet ps i).choice_regions.length -
      sumLens (ps.take i) = (psGet ps i).choice_regions.length := by omega
  rw [hsub]
  have hlen_eq : sumLens (ps.take i) =
      (((ps.map (fun p => p.choice_regions)).take i).map List.length).sum := by
    rw [← List.map_take, List.map_map]
    rfl
  have hgd : (ps.map (fun p => p.choice_regions)).getD i [] =
      (psGet ps i).choice_regions := by
    rw [List.getD_eq_getElem?_getD, List.getElem?_map, List.getElem?_eq_getElem h,
      psGet_eq_getElem ps h]
    rfl
  rw [hlen_eq, ← hgd]
  exact flatten_slice (ps.map (fun p => p.choice_regions)) i (by simpa using h)

theorem choice_regions_at_payload {R : Type} (s : MemberConstraintSet R) (i : Nat) :
    s.choice_regions_at i = (s.constraints[i]?.map payload).map
      (fun q => (s.choice_regions.drop q.2.2.2.2.1).take
        (q.2.2.2.2.2 - q.2.2.2.2.1)) := by
  unfold MemberConstraintSet.choice_regions_at
  cases s.constraints[i]? <;> rfl

/-- The remap changes neither any record's range nor the arena, hence not the
choice regions of any constraint. -/
theorem into_mapped_choice_regions_at {R1 R2 : Type} [DecidableEq R1]
    [DecidableEq R2] (s : MemberConstraintSet R1) (f : R1 → R2) (i : Nat) :
    (s.into_mapped f).choice_regions_at i = s.choice_regions_at i := by
  rw [choice_regions_at_payload, choice_regions_at_payload]
  have harena : (s.into_mapped f).choice_regions = s.choice_regions := rfl
  have hc : (s.into_mapped f).constraints =
      (into_mapped_go f s.first_constraints [] s.constraints).2 := rfl
  rw [harena, hc, into_mapped_go_payload f s.first_constraints [] s.constraints i]

theorem filter_eq_singleton_of_inj {α β : Type} [DecidableEq β] :
    ∀ {K : List α}, K.Nodup → ∀ {g : α → β} {k : α}, k ∈ K →
      (∀ k' ∈ K, g k' = g k → k' = k) →
      K.filter (fun x => g x = g k) = [k] := by
  intro K
  induction K with
  | nil =>
    intro _ g k hk
    cases hk
  | cons x K ih =>
    intro hnd g k hk hinj
    rw [List.nodup_cons] at hnd
    obtain ⟨hx, hnd2⟩ := hnd
    rcases List.mem_cons.mp hk with rfl | hk2
    · have hrest : K.filter (fun y => g y = g k) = [] := by
        rw [List.filter_eq_nil_iff]
        intro y hy
        simp only [decide_eq_true_eq]
        intro hgy
        have hyk := hinj y (List.mem_cons_of_mem _ hy) hgy
        rw [hyk] at hy
        exact hx hy
      rw [List.filter_cons]
      simp [hrest]
    · have hgx : ¬g x = g k := by
        intro hh
        have hxk := hinj x (List.mem_cons_self _ _) hh
        rw [hxk] at hx
        exact hx hk2
      rw [List.filter_cons]
      simp only [hgx, decide_eq_true_eq]
      simp only [decide_eq_false_iff_not.mpr hgx, Bool.false_eq_true, if_false]
      exact ih hnd2 hk2 (fun k' hk' hg => hinj k' (List.mem_cons_of_mem _ hk') hg)

/-! ## The claims -/

/-- C1: for every store built by pushes and every mapping function, the chain
that `indices` yields for a new key after `into_mapped` is the concatenation
of the chains of the old keys that map to it, in reverse head-map (processing)
order, each old chain's internal order preserved; in particular, three old
keys `1, 2, 3` holding one singleton constraint each and all mapped to `4`
yield `indices 4 = [2, 1, 0]`, i.e. `[C3, C2, C1]`. -/
theorem claim_collision_order :
    (∀ (ps : List PushCall) (R2 : Type) [DecidableEq R2] (f : Nat → R2) (r2 : R2),
      ((buildStore ps).into_mapped f).indices r2 =
        ((((buildStore ps).first_constraints.map Prod.fst).filter
            (fun k => f k = r2)).reverse.map
          (fun k => (buildStore ps).indices k)).flatten) ∧
    ((buildStore threeWayPushes).into_mapped (fun _ => (4 : Nat))).indices 4 =
      [2, 1, 0] := by
  constructor
  · intro ps R2 inst f r2
    exact @into_mapped_indices_general ps R2 inst f r2
  · decide

/-- C2: `add_member_constraint` creates a record whose `next` link is the head
the map held for the key just before the call (`none` when absent), installs
the new index as the head for that key, and appends the candidate sequence to
the choice-region arena verbatim; the previous head (if any) is exactly the
new record's `next` link, hence still reachable from the new head. -/
theorem claim_push_spec (s : MemberConstraintSet Nat) (key hid span mrv : Nat)
    (cr : List Nat) :
    ((s.add_member_constraint key hid span mrv cr).constraints[s.constraints.length]?
        = some { next_constraint := fcGet s.first_constraints mrv,
                 definition_span := span, hidden_ty := hid, key := key,
                 member_region_vid := mrv,
                 start_index := s.choice_regions.length,
                 end_index := s.choice_regions.length + cr.length })
    ∧ fcGet (s.add_member_constraint key hid span mrv cr).first_constraints mrv =
        some s.constraints.length
    ∧ (s.add_member_constraint key hid span mrv cr).choice_regions =
        s.choice_regions ++ cr := by
  refine ⟨?_, ?_, rfl⟩
  · unfold MemberConstraintSet.add_member_constraint
    simp only
    rw [List.getElem?_append_right (le_refl _)]
    simp [List.length_append]
  · unfold MemberConstraintSet.add_member_constraint
    simp only
    exact fcGet_fcInsert_self _ _ _

/-- C3: before any remap, `indices k` yields exactly the positions of the
pushes made with key `k`, each once, most recent first, and nothing else. -/
theorem claim_indices_reverse_insertion (ps : List PushCall) (k : Nat) :
    (buildStore ps).indices k =
      ((List.range ps.length).filter
        (fun i => ps[i]?.map (fun p => p.member_region_vid) = some k)).reverse := by
  rw [buildStore_indices]
  rfl

/-- C4: `choice_regions` of the `i`-th pushed constraint returns exactly the
candidate sequence passed to that push, order preserved, no deduplication,
both before and after `into_mapped`. -/
theorem claim_choice_regions_verbatim (ps : List PushCall) {R2 : Type}
    [DecidableEq R2] (f : Nat → R2) {i : Nat} (h : i < ps.length) :
    (buildStore ps).choice_regions_at i = some (psGet ps i).choice_regions ∧
    ((buildStore ps).into_mapped f).choice_regions_at i =
      some (psGet ps i).choice_regions := by
  refine ⟨buildStore_choice_regions_at ps h, ?_⟩
  rw [into_mapped_choice_regions_at]
  exact buildStore_choice_regions_at ps h

theorem claim_choice_regions_verbatim_witness :
    0 < threeWayPushes.length ∧
    ((buildStore threeWayPushes).choice_regions_at 0 =
        some (psGet threeWayPushes 0).choice_regions ∧
      ((buildStore threeWayPushes).into_mapped
        (fun _ => (4 : Nat))).choice_regions_at 0 =
        some (psGet threeWayPushes 0).choice_regions) :=
  ⟨by decide,
    claim_choice_regions_verbatim threeWayPushes (fun _ => (4 : Nat)) (by decide)⟩

/-- C5: `into_mapped` rewrites only head pointers and `next` links: the
choice-region arena, the number of records, and every record's payload
(span, hidden type, opaque key, member region, range) are unchanged. -/
theorem claim_remap_frame {R1 R2 : Type} [DecidableEq R1] [DecidableEq R2]
    (s : MemberConstraintSet R1) (f : R1 → R2) :
    (s.into_mapped f).choice_regions = s.choice_regions ∧
    (s.into_mapped f).constraints.length = s.constraints.length ∧
    ∀ i : Nat, ((s.into_mapped f).constraints[i]?).map payload =
      (s.constraints[i]?).map payload := by
  refine ⟨rfl, ?_, ?_⟩
  · exact into_mapped_go_length f s.first_constraints [] s.constraints
  · intro i
    exact into_mapped_go_payload f s.first_constraints [] s.constraints i

/-- C6: in a store built by pushes, and after one `into_mapped`, every chain
is acyclic (no index twice), and the chains rooted at the heads partition the
records: their concatenation is a permutation of `0..n` both before and after
the remap, so no record is duplicated or dropped. -/
theorem claim_chain_partition (ps : List PushCall) {R2 : Type} [DecidableEq R2]
    (f : Nat → R2) :
    (∀ k : Nat, ((buildStore ps).indices k).Nodup) ∧
    (∀ r2 : R2, (((buildStore ps).into_mapped f).indices r2).Nodup) ∧
    ((((buildStore ps).first_constraints.map Prod.fst).map
      (fun k => (buildStore ps).indices k)).flatten).Perm
      (List.range ps.length) ∧
    (((((buildStore ps).into_mapped f).first_constraints.map Prod.fst).map
      (fun r2 => ((buildStore ps).into_mapped f).indices r2)).flatten).Perm
      (List.range ps.length) := by
  refine ⟨?_, fun r2 => into_mapped_indices_nodup ps f r2,
    buildStore_chains_perm ps, into_mapped_chains_perm ps f⟩
  intro k
  rw [buildStore_indices]
  exact List.nodup_reverse.mpr (idxsOf_nodup ps k)

/-- C7: when the mapping function is injective on the store's keys (in
particular the identity), the chain of `f k` after `into_mapped` equals the
chain of `k` before it, for every key `k` of the store. -/
theorem claim_injective_remap_preserves (ps : List PushCall) {R2 : Type}
    [DecidableEq R2] (f : Nat → R2) (k : Nat) (hk : k ∈ mrvs ps)
    (hinj : ∀ k1 k2, k1 ∈ mrvs ps → k2 ∈ mrvs ps → f k1 = f k2 → k1 = k2) :
    ((buildStore ps).into_mapped f).indices (f k) = (buildStore ps).indices k := by
  rw [into_mapped_indices_general]
  have hkeys_nodup := (buildStore_spec ps).2.2.2.1
  have hmemiff := (buildStore_spec ps).2.2.2.2
  have hkK : k ∈ (buildStore ps).first_constraints.map Prod.fst :=
    (hmemiff k).mpr hk
  have hfil : ((buildStore ps).first_constraints.map Prod.fst).filter
      (fun x => f x = f k) = [k] :=
    filter_eq_singleton_of_inj hkeys_nodup hkK
      (fun k' hk' hg => hinj k' k ((hmemiff k').mp hk') hk hg)
  rw [hfil]
  simp

theorem claim_injective_remap_preserves_witness :
    (1 ∈ mrvs threeWayPushes) ∧
    (∀ k1 k2, k1 ∈ mrvs threeWayPushes → k2 ∈ mrvs threeWayPushes →
      (fun n : Nat => n) k1 = (fun n : Nat => n) k2 → k1 = k2) ∧
    ((buildStore threeWayPushes).into_mapped (fun n : Nat => n)).indices
      ((fun n : Nat => n) 1) = (buildStore threeWayPushes).indices 1 :=
  ⟨by decide, fun k1 k2 _ _ h => h,
    claim_injective_remap_preserves threeWayPushes (fun n : Nat => n) 1
      (by decide) (fun k1 k2 _ _ h => h)⟩

/-- C8: after `n` pushes, `all_indices` yields exactly the indices `0..n` in
push order, and a subsequent `into_mapped` leaves this sequence unchanged. -/
theorem claim_all_indices (ps : List PushCall) {R2 : Type} [DecidableEq R2]
    (f : Nat → R2) :
    (buildStore ps).all_indices = List.range ps.length ∧
    ((buildStore ps).into_mapped f).all_indices = List.range ps.length := by
  constructor
  · unfold MemberConstraintSet.all_indices
    rw [buildStore_constraints_length]
  · unfold MemberConstraintSet.all_indices
    have hlen : ((buildStore ps).into_mapped f).constraints.length = ps.length := by
      have hgo := into_mapped_go_length f (buildStore ps).first_constraints []
        (buildStore ps).constraints
      rw [buildStore_constraints_length] at hgo
      exact hgo
    rw [hlen]

/-- C9: indexing a store with a handle it never produced (one outside
`all_indices`) hits the fatal path — modelled as `none` — both through
`choice_regions` and through the `Index` impl; no default value is returned. -/
theorem claim_invalid_index_fatal {R : Type} (s : MemberConstraintSet R) (i : Nat)
    (h : i ∉ s.all_indices) :
    s.choice_regions_at i = none ∧ s.indexRec i = none := by
  have hge : s.constraints.length ≤ i := by
    unfold MemberConstraintSet.all_indices at h
    by_contra hlt
    exact h (List.mem_range.mpr (by omega))
  have hnone : s.constraints[i]? = none := List.getElem?_eq_none hge
  constructor
  · unfold MemberConstraintSet.choice_regions_at
    rw [hnone]
    rfl
  · unfold MemberConstraintSet.indexRec
    exact hnone

theorem claim_invalid_index_fatal_witness :
    (5 ∉ (buildStore threeWayPushes).all_indices) ∧
    ((buildStore threeWayPushes).choice_regions_at 5 = none ∧
      (buildStore threeWayPushes).indexRec 5 = none) :=
  ⟨by decide, claim_invalid_index_fatal (buildStore threeWayPushes) 5 (by decide)⟩

/-- C10: a key never pushed has no head-map entry, and `indices` for it is the
empty sequence, returned normally; likewise after a remap for a new key that
no old key maps to. -/
theorem claim_missing_key_empty (ps : List PushCall) (k : Nat) {R2 : Type}
    [DecidableEq R2] (f : Nat → R2) (r2 : R2) (h1 : k ∉ mrvs ps)
    (h2 : ∀ k' ∈ mrvs ps, f k' ≠ r2) :
    (buildStore ps).indices k = [] ∧
      ((buildStore ps).into_mapped f).indices r2 = [] := by
  constructor
  · rw [buildStore_indices, (idxsOf_eq_nil_iff ps k).mpr h1]
    rfl
  · rw [into_mapped_indices_general]
    have hfil : ((buildStore ps).first_constraints.map Prod.fst).filter
        (fun x => f x = r2) = [] := by
      rw [List.filter_eq_nil_iff]
      intro x hx
      simp only [decide_eq_true_eq]
      exact h2 x (((buildStore_spec ps).2.2.2.2 x).mp hx)
    rw [hfil]
    rfl

theorem claim_missing_key_empty_witness :
    (9 ∉ mrvs threeWayPushes) ∧
    (∀ k' ∈ mrvs threeWayPushes, (fun n : Nat => n) k' ≠ 9) ∧
    ((buildStore threeWayPushes).indices 9 = [] ∧
      ((buildStore threeWayPushes).into_mapped (fun n : Nat => n)).indices 9 = []) :=
  ⟨by decide, by decide,
    claim_missing_key_empty threeWayPushes 9 (fun n : Nat => n) 9
      (by decide) (by decide)⟩
